import Mathlib

/-!
# Verification of the plunger structured-log store

This file embeds the core of the `plunger` package (the `pkg` Go sources:
the `MetaKeys` interning registry, the `LogWriter.Write` transactional write
path, `LogEntryMeta.Value` decoding, `GetEntriesFilter.Apply` and
`LogWriter.GetEntries`) as executable Lean definitions, and proves or refutes
the specified properties about them.

External collaborators are modelled at their documented interfaces:

* `encoding/json` — modelled by an executable renderer/parser pair
  (`jsonMarshal` / `jsonUnmarshal`) over a `JVal` tree.  Numbers are exact
  decimal numerals (sign, integer part, fraction digits): the Go values are
  `float64`s, whose marshal/unmarshal round-trips exactly through their
  shortest decimal form, so an exact-decimal domain is a faithful interface
  model.  Byte sequences are modelled as `String`s, matching the code's own
  `string(v)` / `[]byte` conversions, which preserve bytes exactly.
* the SQLite store — modelled as in-memory tables (lists of row records),
  with `INSERT`, `INSERT OR REPLACE`, filtered `SELECT`s and transactional
  commit modelled by list operations; a `SELECT` whose `WHERE` clause
  references a column that does not exist in the selected tables fails, as
  it does in SQLite.
-/

namespace Plunger

/-! ## JSON values (interface model of encoding/json) -/

/-- An exact decimal numeral: sign, leading integer digit, remaining integer
digits, fraction digits.  Interface model of the `float64` numbers that
`encoding/json` produces and consumes: Go's marshal/unmarshal round-trips a
`float64` exactly through its shortest decimal form, so an exact-decimal
domain is a faithful model of the number interface. -/
structure JNum where
  neg : Bool
  d0 : Fin 10
  ds : List (Fin 10)
  frac : List (Fin 10)
  deriving DecidableEq, Repr

/-- A decoded JSON value, as `json.Unmarshal` produces into `interface{}`:
`nil`, `bool`, `float64` (here `JNum`), `string`, `[]interface{}`,
`map[string]interface{}` (here an association list in document order). -/
inductive JVal where
  | null : JVal
  | bool (b : Bool) : JVal
  | num (n : JNum) : JVal
  | str (s : String) : JVal
  | arr (elems : List JVal) : JVal
  | obj (fields : List (String × JVal)) : JVal

/-- A dynamic Go value as it flows through `LogWriter.Write`'s type switch:
either a raw byte sequence (`[]byte`, modelled as a `String`, matching the
code's `string(v)` conversion) or a decoded JSON value. -/
inductive GoValue where
  | bytes (bs : String) : GoValue
  | jval (v : JVal) : GoValue

/-- ASCII decimal digit test. -/
def isDigitCh (c : Char) : Bool := 48 ≤ c.toNat && c.toNat ≤ 57

/-- The digit character of a decimal digit value. -/
def digitCh (d : Fin 10) : Char := Char.ofNat (48 + d.val)

/-- The decimal digit value of a digit character. -/
def chDigit (c : Char) : Fin 10 := ⟨(c.toNat - 48) % 10, Nat.mod_lt _ (by omega)⟩

/-- Longest digit-character run at the head of the input, and the remainder. -/
def digitSpan : List Char → List Char × List Char
  | [] => ([], [])
  | c :: cs =>
    if isDigitCh c then
      let p := digitSpan cs
      (c :: p.1, p.2)
    else ([], c :: cs)

/-- Render an exact decimal numeral. -/
def renderNum (n : JNum) : List Char :=
  (if n.neg then ['-'] else []) ++ digitCh n.d0 :: n.ds.map digitCh ++
    (if n.frac.isEmpty then [] else '.' :: n.frac.map digitCh)

/-- Parse a decimal numeral: optional minus sign, digit run, optional point
and fraction digit run. -/
def parseNum (cs : List Char) : Option (JNum × List Char) :=
  let sp := if cs.head? = some '-' then (true, cs.tail) else (false, cs)
  let dp := digitSpan sp.2
  match dp.1 with
  | [] => none
  | d :: dr =>
    if dp.2.head? = some '.' then
      let fp := digitSpan dp.2.tail
      if fp.1.isEmpty then none
      else some (⟨sp.1, chDigit d, dr.map chDigit, fp.1.map chDigit⟩, fp.2)
    else some (⟨sp.1, chDigit d, dr.map chDigit, []⟩, dp.2)

/-- JSON string escaping of one character (quote and backslash). -/
def escCh (c : Char) : List Char :=
  if c = '"' || c = '\\' then ['\\', c] else [c]

/-- JSON string escaping of a character sequence. -/
def escStr : List Char → List Char
  | [] => []
  | c :: cs => escCh c ++ escStr cs

/-- Render a string: opening quote, escaped body, closing quote. -/
def renderStr (s : String) : List Char :=
  '"' :: escStr s.toList ++ ['"']

/-- Parse a string body up to the closing quote, undoing escapes. -/
def parseStrBody : List Char → Option (List Char × List Char)
  | [] => none
  | c :: r =>
    if c = '"' then some ([], r)
    else if c = '\\' then
      match r with
      | [] => none
      | c2 :: r2 =>
        match parseStrBody r2 with
        | none => none
        | some (s, rest) => some (c2 :: s, rest)
    else
      match parseStrBody r with
      | none => none
      | some (s, rest) => some (c :: s, rest)

mutual

/-- Render a JSON value to characters (canonical form: no whitespace). -/
def renderJ : JVal → List Char
  | .null => "null".toList
  | .bool b => (if b then "true" else "false").toList
  | .num n => renderNum n
  | .str s => renderStr s
  | .arr es => '[' :: (renderItems es ++ [']'])
  | .obj fs => '{' :: (renderFlds fs ++ ['}'])

/-- Render array elements, comma-separated. -/
def renderItems : List JVal → List Char
  | [] => []
  | e :: es => renderJ e ++ renderItemsTail es

/-- Render the remaining array elements, each preceded by a comma. -/
def renderItemsTail : List JVal → List Char
  | [] => []
  | e :: es => ',' :: (renderJ e ++ renderItemsTail es)

/-- Render object fields, comma-separated. -/
def renderFlds : List (String × JVal) → List Char
  | [] => []
  | (k, v) :: fs => renderStr k ++ ':' :: (renderJ v ++ renderFldsTail fs)

/-- Render the remaining object fields, each preceded by a comma. -/
def renderFldsTail : List (String × JVal) → List Char
  | [] => []
  | (k, v) :: fs => ',' :: (renderStr k ++ ':' :: (renderJ v ++ renderFldsTail fs))

end

mutual

/-- Parse one JSON value (fuel-bounded recursion). -/
def parseJV : Nat → List Char → Option (JVal × List Char)
  | 0, _ => none
  | _ + 1, [] => none
  | fuel + 1, c :: cs =>
    if c = 'n' then
      if cs.take 3 = ['u', 'l', 'l'] then some (.null, cs.drop 3) else none
    else if c = 't' then
      if cs.take 3 = ['r', 'u', 'e'] then some (.bool true, cs.drop 3) else none
    else if c = 'f' then
      if cs.take 4 = ['a', 'l', 's', 'e'] then some (.bool false, cs.drop 4) else none
    else if c = '"' then
      match parseStrBody cs with
      | none => none
      | some (s, rest) => some (.str (String.mk s), rest)
    else if c = '[' then
      if cs.head? = some ']' then some (.arr [], cs.tail)
      else
        match parseItems fuel cs with
        | none => none
        | some (es, rest) => some (.arr es, rest)
    else if c = '{' then
      if cs.head? = some '}' then some (.obj [], cs.tail)
      else
        match parseFlds fuel cs with
        | none => none
        | some (fs, rest) => some (.obj fs, rest)
    else
      match parseNum (c :: cs) with
      | none => none
      | some (n, rest) => some (.num n, rest)

/-- Parse one or more comma-separated array elements up to `]`. -/
def parseItems : Nat → List Char → Option (List JVal × List Char)
  | 0, _ => none
  | fuel + 1, cs =>
    match parseJV fuel cs with
    | none => none
    | some (v, r) =>
      if r.head? = some ']' then some ([v], r.tail)
      else if r.head? = some ',' then
        match parseItems fuel r.tail with
        | none => none
        | some (vs, r2) => some (v :: vs, r2)
      else none

/-- Parse one or more comma-separated object fields up to the closing brace. -/
def parseFlds : Nat → List Char → Option (List (String × JVal) × List Char)
  | 0, _ => none
  | fuel + 1, cs =>
    if cs.head? = some '"' then
      match parseStrBody cs.tail with
      | none => none
      | some (k, r1) =>
        if r1.head? = some ':' then
          match parseJV fuel r1.tail with
          | none => none
          | some (v, r3) =>
            if r3.head? = some '}' then some ([(String.mk k, v)], r3.tail)
            else if r3.head? = some ',' then
              match parseFlds fuel r3.tail with
              | none => none
              | some (fs, r4) => some ((String.mk k, v) :: fs, r4)
            else none
        else none
    else none

end

/-- Serialize a value, as `json.Marshal` does at its interface. -/
def jsonMarshal (v : JVal) : String := String.mk (renderJ v)

/-- Parse a complete document, as `json.Unmarshal` into `interface{}` does at
its interface: the whole input must be consumed. -/
def jsonUnmarshal (s : String) : Option JVal :=
  match parseJV (s.length + 1) s.toList with
  | some (v, []) => some v
  | _ => none

/-! ## Round-trip of the JSON interface model

`jsonUnmarshal (jsonMarshal v) = some v`: the scaffolding the `Decode(Encode)`
claim needs for the `Json` storage kind. -/

/-- A remainder in front of which a rendered numeral stops cleanly: empty, or
headed by a character that extends neither a digit run nor a fraction. -/
def numStop : List Char → Bool
  | [] => true
  | c :: _ => !(isDigitCh c || c = '.')

theorem isDigitCh_digitCh : ∀ d : Fin 10, isDigitCh (digitCh d) = true := by decide

theorem chDigit_digitCh : ∀ d : Fin 10, chDigit (digitCh d) = d := by decide

theorem digitSpan_stop {cs : List Char} (h : cs.head?.all (fun c => !isDigitCh c)) :
    digitSpan cs = ([], cs) := by
  cases cs with
  | nil => rfl
  | cons c t =>
    simp only [List.head?_cons, Option.all_some, Bool.not_eq_true'] at h
    simp [digitSpan, h]

theorem digitSpan_run (ds : List Char) (hds : ∀ c ∈ ds, isDigitCh c = true)
    (rest : List Char) (hrest : rest.head?.all (fun c => !isDigitCh c)) :
    digitSpan (ds ++ rest) = (ds, rest) := by
  induction ds with
  | nil => simpa using digitSpan_stop hrest
  | cons c t ih =>
    have hrec := ih fun x hx => hds x (List.mem_cons_of_mem c hx)
    simp [digitSpan, hds c (List.mem_cons_self c t), hrec]

theorem map_chDigit_digitCh (ds : List (Fin 10)) :
    (ds.map digitCh).map chDigit = ds := by
  induction ds with
  | nil => rfl
  | cons d t ih => simp [ih, chDigit_digitCh d]

theorem map_comp_chDigit_digitCh (ds : List (Fin 10)) :
    ds.map (chDigit ∘ digitCh) = ds := by
  rw [← List.map_map]
  exact map_chDigit_digitCh ds

theorem mem_map_digitCh {c : Char} {ds : List (Fin 10)} (h : c ∈ ds.map digitCh) :
    isDigitCh c = true := by
  obtain ⟨d, _, rfl⟩ := List.mem_map.mp h
  exact isDigitCh_digitCh d

theorem digitCh_not_minus : ∀ d : Fin 10, digitCh d ≠ '-' := by decide

theorem digitCh_not_dot : ∀ d : Fin 10, digitCh d ≠ '.' := by decide

theorem numStop_not_digit {rest : List Char} (h : numStop rest = true) :
    rest.head?.all (fun c => !isDigitCh c) = true := by
  cases rest with
  | nil => rfl
  | cons c t =>
    simp only [numStop, Bool.not_eq_true', Bool.or_eq_false_iff] at h
    simp [h.1]

theorem numStop_not_dot {rest : List Char} (h : numStop rest = true) :
    rest.head? ≠ some '.' := by
  cases rest with
  | nil => simp
  | cons c t =>
    simp only [numStop, Bool.not_eq_true', Bool.or_eq_false_iff,
      decide_eq_false_iff_not] at h
    simp [h.2]

theorem parseNum_render (n : JNum) (rest : List Char) (h : numStop rest = true) :
    parseNum (renderNum n ++ rest) = some (n, rest) := by
  obtain ⟨neg, d0, ds, frac⟩ := n
  have hdigits : ∀ c ∈ digitCh d0 :: ds.map digitCh, isDigitCh c = true := by
    intro c hc
    rcases List.mem_cons.mp hc with rfl | hm
    · exact isDigitCh_digitCh d0
    · exact mem_map_digitCh hm
  cases frac with
  | nil =>
    have hspan := digitSpan_run (digitCh d0 :: ds.map digitCh) hdigits rest
      (numStop_not_digit h)
    simp only [List.cons_append] at hspan
    cases neg <;>
      simp [renderNum, parseNum, digitCh_not_minus d0, hspan, numStop_not_dot h,
        chDigit_digitCh, map_chDigit_digitCh, map_comp_chDigit_digitCh]
  | cons f fr =>
    have hspan := digitSpan_run (digitCh d0 :: ds.map digitCh) hdigits
      ('.' :: ((f :: fr).map digitCh ++ rest)) (by simp [isDigitCh])
    have hspan2 := digitSpan_run ((f :: fr).map digitCh)
      (fun c hc => mem_map_digitCh hc) rest (numStop_not_digit h)
    simp only [List.map_cons, List.cons_append] at hspan hspan2
    cases neg <;>
      simp [renderNum, parseNum, digitCh_not_minus d0, hspan, hspan2,
        chDigit_digitCh, map_chDigit_digitCh, map_comp_chDigit_digitCh]

theorem escStr_parse (s : List Char) (rest : List Char) :
    parseStrBody (escStr s ++ '"' :: rest) = some (s, rest) := by
  induction s with
  | nil =>
    rw [show escStr [] ++ '"' :: rest = '"' :: rest from rfl]
    conv_lhs => rw [parseStrBody.eq_def]
    simp
  | cons c cs ih =>
    by_cases hc : (c = '"' || c = '\\') = true
    · rw [show escStr (c :: cs) ++ '"' :: rest = '\\' :: c :: (escStr cs ++ '"' :: rest) by
        simp [escStr, escCh, hc]]
      conv_lhs => rw [parseStrBody.eq_def]
      simp [ih]
    · simp only [Bool.or_eq_true, decide_eq_true_eq, not_or] at hc
      rw [show escStr (c :: cs) ++ '"' :: rest = c :: (escStr cs ++ '"' :: rest) by
        simp [escStr, escCh, hc.1, hc.2]]
      conv_lhs => rw [parseStrBody.eq_def]
      simp [hc.1, hc.2, ih]

theorem strMk_toList (s : String) : String.mk s.toList = s := rfl

theorem isDigitCh_ne {c : Char} (h : isDigitCh c = true) :
    c ≠ '"' ∧ c ≠ '[' ∧ c ≠ '{' ∧ c ≠ 'n' ∧ c ≠ 't' ∧ c ≠ 'f' := by
  refine ⟨fun he => ?_, fun he => ?_, fun he => ?_, fun he => ?_, fun he => ?_,
    fun he => ?_⟩ <;> (subst he; revert h; decide)

theorem digitCh_ne_rb : ∀ d : Fin 10, digitCh d ≠ ']' := by decide

/-- The value dispatch of `parseJV` on a numeric head character falls through
to `parseNum`. -/
theorem parseJV_num_dispatch (fuel : Nat) (c : Char) (t : List Char)
    (h : c = '-' ∨ isDigitCh c = true) :
    parseJV (fuel + 1) (c :: t) =
      match parseNum (c :: t) with
      | none => none
      | some (n, rest) => some (.num n, rest) := by
  rcases h with rfl | hd
  · simp [parseJV]
  · obtain ⟨h4, h5, h6, h1, h2, h3⟩ := isDigitCh_ne hd
    simp [parseJV, h1, h2, h3, h4, h5, h6]

/-- A rendered numeral followed by a clean remainder has a numeric head. -/
theorem renderNum_head (n : JNum) (rest : List Char) :
    ∃ c t, renderNum n ++ rest = c :: t ∧ (c = '-' ∨ isDigitCh c = true) ∧ c ≠ ']' := by
  obtain ⟨neg, d0, ds, frac⟩ := n
  cases neg with
  | false =>
    exact ⟨digitCh d0,
      (ds.map digitCh ++ (if frac.isEmpty then [] else '.' :: frac.map digitCh)) ++ rest,
      rfl, Or.inr (isDigitCh_digitCh d0), digitCh_ne_rb d0⟩
  | true =>
    exact ⟨'-',
      (digitCh d0 :: ds.map digitCh ++
        (if frac.isEmpty then [] else '.' :: frac.map digitCh)) ++ rest,
      rfl, Or.inl rfl, by decide⟩

theorem parseJV_renderNum (n : JNum) (fuel : Nat) (rest : List Char)
    (h : numStop rest = true) :
    parseJV (fuel + 1) (renderNum n ++ rest) = some (.num n, rest) := by
  obtain ⟨c, t, hct, hc, _⟩ := renderNum_head n rest
  rw [hct, parseJV_num_dispatch _ _ _ hc, ← hct, parseNum_render _ _ h]

/-- Every rendered value is nonempty, and its head closes no array. -/
theorem renderJ_head (v : JVal) : ∃ c t, renderJ v = c :: t ∧ c ≠ ']' := by
  cases v with
  | null => exact ⟨'n', _, rfl, by decide⟩
  | bool b => cases b with
    | true => exact ⟨'t', _, rfl, by decide⟩
    | false => exact ⟨'f', _, rfl, by decide⟩
  | num n =>
    obtain ⟨c, t, hct, _, hne⟩ := renderNum_head n []
    rw [List.append_nil] at hct
    exact ⟨c, t, hct, hne⟩
  | str s => exact ⟨'"', _, rfl, by decide⟩
  | arr es => exact ⟨'[', _, rfl, by decide⟩
  | obj fs => exact ⟨'{', _, rfl, by decide⟩

/-- The array branch of the dispatch, when the element list is nonempty. -/
theorem parseJV_arr_dispatch (fuel : Nat) (cs : List Char) (h : cs.head? ≠ some ']') :
    parseJV (fuel + 1) ('[' :: cs) =
      match parseItems fuel cs with
      | none => none
      | some (es, rest) => some (.arr es, rest) := by
  simp [parseJV, h]

/-- The object branch of the dispatch, when the field list is nonempty. -/
theorem parseJV_obj_dispatch (fuel : Nat) (cs : List Char) (h : cs.head? ≠ some '}') :
    parseJV (fuel + 1) ('{' :: cs) =
      match parseFlds fuel cs with
      | none => none
      | some (fs, rest) => some (.obj fs, rest) := by
  simp [parseJV, h]

mutual

/-- Parsing a rendered value consumes exactly it (fuel above its length,
remainder not extending a numeral). -/
theorem rtJV : ∀ (v : JVal) (fuel : Nat) (rest : List Char),
    (renderJ v).length < fuel → numStop rest = true →
    parseJV fuel (renderJ v ++ rest) = some (v, rest)
  | .null, fuel, rest, hf, _ => by
    cases fuel with
    | zero => exact absurd hf (Nat.not_lt_zero _)
    | succ f =>
      rw [show renderJ .null ++ rest = 'n' :: 'u' :: 'l' :: 'l' :: rest from rfl]
      conv_lhs => rw [parseJV.eq_def]
      simp
  | .bool true, fuel, rest, hf, _ => by
    cases fuel with
    | zero => exact absurd hf (Nat.not_lt_zero _)
    | succ f =>
      rw [show renderJ (.bool true) ++ rest = 't' :: 'r' :: 'u' :: 'e' :: rest from rfl]
      conv_lhs => rw [parseJV.eq_def]
      simp
  | .bool false, fuel, rest, hf, _ => by
    cases fuel with
    | zero => exact absurd hf (Nat.not_lt_zero _)
    | succ f =>
      rw [show renderJ (.bool false) ++ rest = 'f' :: 'a' :: 'l' :: 's' :: 'e' :: rest
        from rfl]
      conv_lhs => rw [parseJV.eq_def]
      simp
  | .num n, fuel, rest, hf, hr => by
    cases fuel with
    | zero => exact absurd hf (Nat.not_lt_zero _)
    | succ f => exact parseJV_renderNum n f rest hr
  | .str s, fuel, rest, hf, _ => by
    cases fuel with
    | zero => exact absurd hf (Nat.not_lt_zero _)
    | succ f =>
      rw [show renderJ (.str s) ++ rest = '"' :: (escStr s.toList ++ '"' :: rest) by
        simp [renderJ, renderStr]]
      conv_lhs => rw [parseJV.eq_def]
      simp [escStr_parse, strMk_toList]
  | .arr [], fuel, rest, hf, _ => by
    cases fuel with
    | zero => exact absurd hf (Nat.not_lt_zero _)
    | succ f =>
      rw [show renderJ (.arr []) ++ rest = '[' :: ']' :: rest from rfl]
      conv_lhs => rw [parseJV.eq_def]
      simp
  | .arr (e :: es), fuel, rest, hf, _ => by
    cases fuel with
    | zero => exact absurd hf (Nat.not_lt_zero _)
    | succ f =>
      obtain ⟨c0, t0, he, hc0⟩ := renderJ_head e
      have harg : renderJ (.arr (e :: es)) ++ rest
          = '[' :: (renderItems (e :: es) ++ ']' :: rest) := by
        simp [renderJ]
      have hhead : (renderItems (e :: es) ++ ']' :: rest).head? ≠ some ']' := by
        simp [renderItems, he, hc0]
      have hlen : (renderItems (e :: es)).length + 1 < f := by
        have hred : (renderJ (.arr (e :: es))).length = (renderItems (e :: es)).length + 2 := by
          simp [renderJ]
        omega
      rw [harg, parseJV_arr_dispatch f _ hhead, rtItems e es f rest hlen]
  | .obj [], fuel, rest, hf, _ => by
    cases fuel with
    | zero => exact absurd hf (Nat.not_lt_zero _)
    | succ f =>
      rw [show renderJ (.obj []) ++ rest = '{' :: '}' :: rest from rfl]
      conv_lhs => rw [parseJV.eq_def]
      simp
  | .obj ((k, v) :: fs), fuel, rest, hf, _ => by
    cases fuel with
    | zero => exact absurd hf (Nat.not_lt_zero _)
    | succ f =>
      have harg : renderJ (.obj ((k, v) :: fs)) ++ rest
          = '{' :: (renderFlds ((k, v) :: fs) ++ '}' :: rest) := by
        simp [renderJ]
      have hhead : (renderFlds ((k, v) :: fs) ++ '}' :: rest).head? ≠ some '}' := by
        simp [renderFlds, renderStr]
      have hlen : (renderFlds ((k, v) :: fs)).length + 1 < f := by
        have hred : (renderJ (.obj ((k, v) :: fs))).length
            = (renderFlds ((k, v) :: fs)).length + 2 := by
          simp [renderJ]
        omega
      rw [harg, parseJV_obj_dispatch f _ hhead, rtFlds k v fs f rest hlen]
termination_by v _ _ _ _ => sizeOf v

/-- Parsing rendered comma-separated elements up to the closing bracket. -/
theorem rtItems : ∀ (e : JVal) (es : List JVal) (fuel : Nat) (rest : List Char),
    (renderItems (e :: es)).length + 1 < fuel →
    parseItems fuel (renderItems (e :: es) ++ ']' :: rest) = some (e :: es, rest)
  | e, [], fuel, rest, hf => by
    cases fuel with
    | zero => exact absurd hf (Nat.not_lt_zero _)
    | succ f =>
      have hjlen : (renderJ e).length < f := by
        simp only [renderItems, List.length_append] at hf; omega
      have hjv := rtJV e f (']' :: rest) hjlen rfl
      have harg : renderItems [e] ++ ']' :: rest = renderJ e ++ ']' :: rest := by
        simp [renderItems, renderItemsTail]
      rw [harg]
      conv_lhs => rw [parseItems.eq_def]
      simp [hjv]
  | e, e2 :: es2, fuel, rest, hf => by
    cases fuel with
    | zero => exact absurd hf (Nat.not_lt_zero _)
    | succ f =>
      have hjlen : (renderJ e).length < f := by
        simp only [renderItems, List.length_append] at hf; omega
      have hjv := rtJV e f (',' :: (renderItems (e2 :: es2) ++ ']' :: rest)) hjlen rfl
      have harg : renderItems (e :: e2 :: es2) ++ ']' :: rest
          = renderJ e ++ (',' :: (renderItems (e2 :: es2) ++ ']' :: rest)) := by
        simp [renderItems, renderItemsTail]
      have hlen2 : (renderItems (e2 :: es2)).length + 1 < f := by
        simp only [renderItems, renderItemsTail, List.length_append,
          List.length_cons] at hf ⊢
        omega
      have ht := rtItems e2 es2 f rest hlen2
      rw [harg]
      conv_lhs => rw [parseItems.eq_def]
      simp [hjv, ht]
termination_by e es _ _ _ => 1 + sizeOf e + sizeOf es

/-- Parsing rendered comma-separated fields up to the closing brace. -/
theorem rtFlds : ∀ (k : String) (v : JVal) (fs : List (String × JVal)) (fuel : Nat)
    (rest : List Char),
    (renderFlds ((k, v) :: fs)).length + 1 < fuel →
    parseFlds fuel (renderFlds ((k, v) :: fs) ++ '}' :: rest) = some ((k, v) :: fs, rest)
  | k, v, [], fuel, rest, hf => by
    cases fuel with
    | zero => exact absurd hf (Nat.not_lt_zero _)
    | succ f =>
      have harg : renderFlds [(k, v)] ++ '}' :: rest
          = '"' :: (escStr k.toList ++ '"' :: (':' :: (renderJ v ++ '}' :: rest))) := by
        simp [renderFlds, renderFldsTail, renderStr]
      have hjlen : (renderJ v).length < f := by
        simp only [renderFlds, renderFldsTail, renderStr, List.length_append,
          List.length_cons] at hf
        omega
      have hjv := rtJV v f ('}' :: rest) hjlen rfl
      rw [harg]
      conv_lhs => rw [parseFlds.eq_def]
      simp [escStr_parse, hjv, strMk_toList]
  | k, v, (k2, v2) :: fs2, fuel, rest, hf => by
    cases fuel with
    | zero => exact absurd hf (Nat.not_lt_zero _)
    | succ f =>
      have harg : renderFlds ((k, v) :: (k2, v2) :: fs2) ++ '}' :: rest
          = '"' :: (escStr k.toList ++ '"' :: (':' :: (renderJ v ++
              (',' :: (renderFlds ((k2, v2) :: fs2) ++ '}' :: rest))))) := by
        simp [renderFlds, renderFldsTail, renderStr]
      have hjlen : (renderJ v).length < f := by
        simp only [renderFlds, renderFldsTail, renderStr, List.length_append,
          List.length_cons] at hf
        omega
      have hjv := rtJV v f (',' :: (renderFlds ((k2, v2) :: fs2) ++ '}' :: rest))
        hjlen rfl
      have hlen2 : (renderFlds ((k2, v2) :: fs2)).length + 1 < f := by
        simp only [renderFlds, renderFldsTail, renderStr, List.length_append,
          List.length_cons] at hf ⊢
        omega
      have ht := rtFlds k2 v2 fs2 f rest hlen2
      rw [harg]
      conv_lhs => rw [parseFlds.eq_def]
      simp [escStr_parse, hjv, ht, strMk_toList]
termination_by k v fs _ _ _ => 1 + sizeOf v + sizeOf fs

end

/-- The full codec round-trip of the JSON interface model. -/
theorem jsonUnmarshal_jsonMarshal (v : JVal) : jsonUnmarshal (jsonMarshal v) = some v := by
  have h := rtJV v ((renderJ v).length + 1) [] (Nat.lt_succ_self _) rfl
  rw [List.append_nil] at h
  simp only [jsonUnmarshal, jsonMarshal]
  rw [show (String.mk (renderJ v)).length = (renderJ v).length from rfl,
    show (String.mk (renderJ v)).toList = renderJ v from rfl, h]

example : jsonUnmarshal (jsonMarshal (.arr [.num ⟨false, 4, [2], []⟩, .str "a\"b"])) =
    some (.arr [.num ⟨false, 4, [2], []⟩, .str "a\"b"]) := rfl

example : jsonMarshal (.obj [("a", .num ⟨true, 1, [], [5]⟩)]) = "\x7b\"a\":-1.5\x7d" := rfl

example : jsonUnmarshal "null" = some .null := rfl

example : jsonUnmarshal "\x7b\"level\"" = none := rfl

/-! ## Storage kinds, value encoding and decoding (src/unnamed/part_001)

`LogEntryType`, `ToLogEntryType`, the column-packing switch inside
`LogWriter.Write` (lines 242–259) and `LogEntryMeta.Value` (lines 301–330). -/

/-- `LogEntryType` of part_001: `Real`, `Text`, `Blob`, `JSON` (in iota order). -/
inductive LogEntryType where
  | real : LogEntryType
  | text : LogEntryType
  | blob : LogEntryType
  | json : LogEntryType
  deriving DecidableEq, Repr

/-- The `String()` method of `LogEntryType`. -/
def LogEntryType.string : LogEntryType → String
  | .real => "real"
  | .text => "text"
  | .blob => "blob"
  | .json => "json"

/-- `ToLogEntryType`: every integer and floating kind is `Real`; `string` is
`Text`; `[]byte` is `Blob`; everything else defaults to `JSON`. -/
def ToLogEntryType : GoValue → LogEntryType
  | .jval (.num _) => .real
  | .jval (.str _) => .text
  | .bytes _ => .blob
  | _ => .json

/-- The Go error values the embedded operations can surface. -/
inductive GoErr where
  | jsonSyntax : GoErr
  | nilValueColumn : GoErr
  | beginFail : GoErr
  | scanFail : GoErr
  | execFail : GoErr
  | noSuchColumn : GoErr
  deriving DecidableEq, Repr

/-- The typed value columns produced for one attribute by the switch in
`LogWriter.Write`.  `intValue` is declared there but never assigned (part_001
has no `Int` storage kind), so it is always NULL. -/
structure EncodedValue where
  typeValue : LogEntryType
  intValue : Option Int
  realValue : Option JNum
  textValue : Option String
  blobValue : Option String

/-- The switch over the dynamic value in `LogWriter.Write` (part_001 lines
242–259), in source order: `float64` → real column, `[]byte` → blob column,
`string` → text column, default → `json.Marshal` into the blob column.
(`json.Marshal` cannot fail on values that came from `json.Unmarshal`, so the
model is total.) -/
def encodeMetaValue : GoValue → EncodedValue
  | .jval (.num n) => ⟨.real, none, some n, none, none⟩
  | .bytes bs => ⟨.blob, none, none, none, some bs⟩
  | .jval (.str s) => ⟨.text, none, none, some s, none⟩
  | .jval v => ⟨.json, none, none, none, some (jsonMarshal v)⟩

/-- A `log_entries_meta` row as scanned by `GetEntries`, including the
`mk.key AS meta_key` column from the left join against `meta_keys`. -/
structure LogEntryMeta where
  id : Nat
  logEntryId : Nat
  type : LogEntryType
  name : Option String
  metaKeyId : Option Nat
  intValue : Option Int
  realValue : Option JNum
  textValue : Option String
  blobValue : Option String
  metaKey : Option String

/-- `LogEntryMeta.Value` (part_001 lines 301–330): a nil expected column is an
error; `JSON` re-parses the blob payload. -/
def LogEntryMeta.value (lem : LogEntryMeta) : Except GoErr GoValue :=
  match lem.type with
  | .real =>
    match lem.realValue with
    | none => .error .nilValueColumn
    | some r => .ok (.jval (.num r))
  | .text =>
    match lem.textValue with
    | none => .error .nilValueColumn
    | some t => .ok (.jval (.str t))
  | .json =>
    match lem.blobValue with
    | none => .error .nilValueColumn
    | some b =>
      match jsonUnmarshal b with
      | none => .error .jsonSyntax
      | some v => .ok (.jval v)
  | .blob =>
    match lem.blobValue with
    | none => .error .nilValueColumn
    | some b => .ok (.bytes b)

/-- A meta row holding the encoded columns of `v`, as `Write` inserts it. -/
def encodedRow (mid eid : Nat) (nm : Option String) (mkid : Option Nat)
    (mk : Option String) (e : EncodedValue) : LogEntryMeta :=
  ⟨mid, eid, e.typeValue, nm, mkid, e.intValue, e.realValue, e.textValue,
    e.blobValue, mk⟩

/-- C1: for every supported value — fractional number, string, byte sequence,
nested structured value — decoding the stored column representation produced
by the write path's encoding yields the original value: a `Real` number is
stored losslessly in the floating-point column, bytes are preserved exactly,
and nested structured values survive the `json.Marshal`/`json.Unmarshal`
round trip structurally intact. -/
theorem c1_decode_encode_roundtrip (v : GoValue) (mid eid : Nat)
    (nm : Option String) (mkid : Option Nat) (mk : Option String) :
    (encodedRow mid eid nm mkid mk (encodeMetaValue v)).value = .ok v := by
  cases v with
  | bytes bs => rfl
  | jval j =>
    cases j with
    | num n => rfl
    | str s => rfl
    | null =>
      simp [encodeMetaValue, encodedRow, LogEntryMeta.value, jsonUnmarshal_jsonMarshal]
    | bool b =>
      simp [encodeMetaValue, encodedRow, LogEntryMeta.value, jsonUnmarshal_jsonMarshal]
    | arr es =>
      simp [encodeMetaValue, encodedRow, LogEntryMeta.value, jsonUnmarshal_jsonMarshal]
    | obj fs =>
      simp [encodeMetaValue, encodedRow, LogEntryMeta.value, jsonUnmarshal_jsonMarshal]

/-! ## The name-interning registry (src/unnamed/part_001, lines 44–124)

`MetaKey`, `MetaKeys`, `Get`, `GetByID`, `Add`, `AddWithID`.  The two Go maps
are embedded as association lists; both `Add` and `AddWithID` only ever insert
keys that are absent, so front insertion models map assignment exactly. -/

/-- `MetaKey`: an interned attribute name with its small stable id. -/
structure MetaKey where
  name : String
  id : Nat
  deriving DecidableEq, Repr

/-- Association-list lookup (the map read `m[k]`). -/
def lookupA {α β : Type} [DecidableEq α] : List (α × β) → α → Option β
  | [], _ => none
  | (a, b) :: t, x => if a = x then some b else lookupA t x

/-- `MetaKeys`: the `Keys` map (name to entry), the `namesById` map, and the
high-water mark `maxID`. -/
structure MetaKeys where
  keys : List (String × MetaKey)
  namesById : List (Nat × String)
  maxID : Nat
  deriving DecidableEq, Repr

/-- `NewMetaKeys`: both maps empty, `maxID` zero. -/
def NewMetaKeys : MetaKeys := ⟨[], [], 0⟩

/-- `MetaKeys.Get`. -/
def MetaKeys.get (m : MetaKeys) (name : String) : Option MetaKey :=
  lookupA m.keys name

/-- `MetaKeys.GetByID`: resolve the id to a name, then the name to its entry. -/
def MetaKeys.getByID (m : MetaKeys) (id : Nat) : Option MetaKey :=
  match lookupA m.namesById id with
  | none => none
  | some name => m.get name

/-- `MetaKeys.Add`: return the existing entry, or allocate the next id from
the high-water mark, advance it, and record the entry in both maps. -/
def MetaKeys.add (m : MetaKeys) (name : String) : MetaKey × MetaKeys :=
  match m.get name with
  | some key => (key, m)
  | none =>
    let key : MetaKey := ⟨name, m.maxID⟩
    (key, ⟨(name, key) :: m.keys, (key.id, name) :: m.namesById, m.maxID + 1⟩)

/-- `MetaKeys.AddWithID`, with the same result shape as the Go method: the
returned entry (the name-conflict branch returns the existing entry next to
the error), the error, and the registry afterwards.  The first guard is Go's
`name_, ok := m.namesById[id]; if ok && name_ != name`, written with `getD`
so that an absent id compares equal and falls through. -/
def MetaKeys.addWithID (m : MetaKeys) (name : String) (id : Nat) :
    Option MetaKey × Option String × MetaKeys :=
  if (lookupA m.namesById id).getD name ≠ name then
    (none, some "key already exists with id", m)
  else
    match m.get name with
    | some key =>
      if key.id ≠ id then (some key, some "key already exists with id", m)
      else (some key, none, m)
    | none =>
      let key : MetaKey := ⟨name, id⟩
      (some key, none,
        ⟨(name, key) :: m.keys, (id, name) :: m.namesById,
          (if id > m.maxID then id else m.maxID) + 1⟩)

/-- C5: `Intern(n)` twice yields the same entry both times (and the second
call changes nothing); `InternWithID(n, id)` repeated with the same pair
succeeds idempotently with the same entry; and `InternWithID` against an id
bound to a different name, or a name bound to a different id, fails with a
conflict error and leaves the registry — both index maps and the high-water
mark — unchanged. -/
theorem c5_intern_stability (m : MetaKeys) (n : String) (id : Nat) :
    (((m.add n).2.add n).1 = (m.add n).1 ∧ ((m.add n).2.add n).2 = (m.add n).2)
    ∧ (∀ k m1, m.addWithID n id = (some k, none, m1) →
        m1.addWithID n id = (some k, none, m1))
    ∧ (∀ n2, lookupA m.namesById id = some n2 → n2 ≠ n →
        (m.addWithID n id).1 = none ∧ (m.addWithID n id).2.1.isSome = true
          ∧ (m.addWithID n id).2.2 = m)
    ∧ (∀ k, m.get n = some k → k.id ≠ id →
        (m.addWithID n id).2.1.isSome = true ∧ (m.addWithID n id).2.2 = m) := by
  refine ⟨?_, ?_, ?_, ?_⟩
  · match hg : m.get n with
    | some key => simp [MetaKeys.add, hg]
    | none =>
      have hg2 : lookupA m.keys n = none := hg
      simp [MetaKeys.add, MetaKeys.get, hg2, lookupA]
  · intro k m1 h
    by_cases hguard : (lookupA m.namesById id).getD n ≠ n
    · simp [MetaKeys.addWithID, hguard] at h
    · match hg : m.get n with
      | some key =>
        by_cases hid : key.id ≠ id
        · simp [MetaKeys.addWithID, hguard, hg, hid] at h
        · simp only [MetaKeys.addWithID, hguard, hg, hid, ite_false, reduceIte,
            Prod.mk.injEq, Option.some.injEq] at h
          obtain ⟨rfl, -, rfl⟩ := h
          simp [MetaKeys.addWithID, hguard, hg, hid]
      | none =>
        simp only [MetaKeys.addWithID, hguard, hg, reduceIte, Prod.mk.injEq,
          Option.some.injEq] at h
        obtain ⟨rfl, -, rfl⟩ := h
        simp [MetaKeys.addWithID, MetaKeys.get, lookupA]
  · intro n2 hlook hne
    have hguard : (lookupA m.namesById id).getD n ≠ n := by simp [hlook, hne]
    simp [MetaKeys.addWithID, hguard]
  · intro k hget hkid
    by_cases hguard : (lookupA m.namesById id).getD n ≠ n
    · simp [MetaKeys.addWithID, hguard]
    · simp [MetaKeys.addWithID, hguard, hget, hkid]

/-- One registry operation: plain `Intern`, or a reload-time `InternWithID`
(whose state is unchanged when it fails, so applying it unconditionally also
models sequences containing failing calls). -/
inductive MKOp where
  | intern (n : String) : MKOp
  | internWithID (n : String) (id : Nat) : MKOp

/-- Apply one operation to a registry, keeping the state. -/
def MetaKeys.step (m : MetaKeys) : MKOp → MetaKeys
  | .intern n => (m.add n).2
  | .internWithID n id => (m.addWithID n id).2.2

/-- The registry reached from `NewMetaKeys` by a sequence of operations. -/
def runOps (ops : List MKOp) : MetaKeys :=
  ops.foldl MetaKeys.step NewMetaKeys

/-- The two index maps of a registry agree, and every bound id sits strictly
below the high-water mark. -/
def MKInv (m : MetaKeys) : Prop :=
  (∀ n k, lookupA m.keys n = some k → k.name = n ∧ lookupA m.namesById k.id = some n)
  ∧ (∀ id n, lookupA m.namesById id = some n →
      ∃ k, lookupA m.keys n = some k ∧ k.id = id)
  ∧ (∀ id n, lookupA m.namesById id = some n → id < m.maxID)

theorem mkInv_new : MKInv NewMetaKeys := by
  refine ⟨?_, ?_, ?_⟩ <;> intro a b h <;> simp [NewMetaKeys, lookupA] at h

theorem mkInv_add {m : MetaKeys} (hinv : MKInv m) (n : String) :
    MKInv (m.add n).2 := by
  obtain ⟨h1, h2, h3⟩ := hinv
  match hg : m.get n with
  | some key => simpa [MetaKeys.add, hg] using ⟨h1, h2, h3⟩
  | none =>
    have hg2 : lookupA m.keys n = none := hg
    simp only [MetaKeys.add, hg]
    refine ⟨?_, ?_, ?_⟩
    · intro n1 k1 hk
      simp only [lookupA] at hk
      by_cases he : n = n1
      · subst he
        simp only [reduceIte, Option.some.injEq] at hk
        subst hk
        simp [lookupA]
      · rw [if_neg he] at hk
        obtain ⟨hname, hby⟩ := h1 n1 k1 hk
        have hlt := h3 k1.id n1 hby
        refine ⟨hname, ?_⟩
        simp only [lookupA, if_neg (by omega : ¬m.maxID = k1.id)]
        exact hby
    · intro id1 n1 hby
      simp only [lookupA] at hby
      by_cases he : m.maxID = id1
      · subst he
        simp only [reduceIte, Option.some.injEq] at hby
        subst hby
        exact ⟨⟨n, m.maxID⟩, by simp [lookupA], rfl⟩
      · rw [if_neg he] at hby
        obtain ⟨k1, hk, hid⟩ := h2 id1 n1 hby
        have hne : ¬n = n1 := by
          intro hcontra
          subst hcontra
          rw [hg2] at hk
          exact Option.noConfusion hk
        exact ⟨k1, by simp only [lookupA, if_neg hne]; exact hk, hid⟩
    · intro id1 n1 hby
      simp only [lookupA] at hby
      by_cases he : m.maxID = id1
      · dsimp only
        omega
      · rw [if_neg he] at hby
        have := h3 id1 n1 hby
        dsimp only
        omega

theorem mkInv_addWithID {m : MetaKeys} (hinv : MKInv m) (n : String) (id : Nat) :
    MKInv (m.addWithID n id).2.2 := by
  obtain ⟨h1, h2, h3⟩ := hinv
  by_cases hguard : (lookupA m.namesById id).getD n ≠ n
  · simpa [MetaKeys.addWithID, hguard] using ⟨h1, h2, h3⟩
  · match hg : m.get n with
    | some key =>
      by_cases hid : key.id ≠ id <;>
        simpa [MetaKeys.addWithID, hguard, hg, hid] using ⟨h1, h2, h3⟩
    | none =>
      have hg2 : lookupA m.keys n = none := hg
      have hfree : lookupA m.namesById id = none := by
        match hL : lookupA m.namesById id with
        | none => rfl
        | some n2 =>
          rw [hL] at hguard
          simp only [Option.getD_some, ne_eq, not_not] at hguard
          subst hguard
          obtain ⟨k, hk, -⟩ := h2 id n2 hL
          rw [hg2] at hk
          exact Option.noConfusion hk
      simp only [MetaKeys.addWithID, hguard, hg, reduceIte]
      refine ⟨?_, ?_, ?_⟩
      · intro n1 k1 hk
        simp only [lookupA] at hk
        by_cases he : n = n1
        · subst he
          simp only [reduceIte, Option.some.injEq] at hk
          subst hk
          simp [lookupA]
        · rw [if_neg he] at hk
          obtain ⟨hname, hby⟩ := h1 n1 k1 hk
          have hne2 : ¬id = k1.id := by
            intro hcontra
            rw [← hcontra] at hby
            rw [hfree] at hby
            exact Option.noConfusion hby
          refine ⟨hname, ?_⟩
          simp only [lookupA, if_neg hne2]
          exact hby
      · intro id1 n1 hby
        simp only [lookupA] at hby
        by_cases he : id = id1
        · subst he
          simp only [reduceIte, Option.some.injEq] at hby
          subst hby
          exact ⟨⟨n, id⟩, by simp [lookupA], rfl⟩
        · rw [if_neg he] at hby
          obtain ⟨k1, hk, hid1⟩ := h2 id1 n1 hby
          have hne : ¬n = n1 := by
            intro hcontra
            subst hcontra
            rw [hg2] at hk
            exact Option.noConfusion hk
          exact ⟨k1, by simp only [lookupA, if_neg hne]; exact hk, hid1⟩
      · intro id1 n1 hby
        simp only [lookupA] at hby
        by_cases he : id = id1
        · subst he
          dsimp only
          split <;> omega
        · rw [if_neg he] at hby
          have := h3 id1 n1 hby
          dsimp only
          split <;> omega

theorem mkInv_step {m : MetaKeys} (hinv : MKInv m) (op : MKOp) :
    MKInv (m.step op) := by
  cases op with
  | intern n => exact mkInv_add hinv n
  | internWithID n id => exact mkInv_addWithID hinv n id

theorem mkInv_runOps (ops : List MKOp) : MKInv (runOps ops) := by
  suffices h : ∀ m, MKInv m → MKInv (ops.foldl MetaKeys.step m) from
    h NewMetaKeys mkInv_new
  induction ops with
  | nil => exact fun m hm => hm
  | cons op t ih => exact fun m hm => ih _ (mkInv_step hm op)

theorem step_maxID_mono (m : MetaKeys) (op : MKOp) : m.maxID ≤ (m.step op).maxID := by
  cases op with
  | intern n =>
    match hg : m.get n with
    | some key => simp [MetaKeys.step, MetaKeys.add, hg]
    | none => simp [MetaKeys.step, MetaKeys.add, hg]
  | internWithID n id =>
    by_cases hguard : (lookupA m.namesById id).getD n ≠ n
    · simp [MetaKeys.step, MetaKeys.addWithID, hguard]
    · match hg : m.get n with
      | some key =>
        by_cases hid : key.id ≠ id <;>
          simp [MetaKeys.step, MetaKeys.addWithID, hguard, hg, hid]
      | none =>
        simp only [MetaKeys.step, MetaKeys.addWithID, hguard, hg, reduceIte]
        show m.maxID ≤ (if id > m.maxID then id else m.maxID) + 1
        split <;> omega

theorem addWithID_ok_maxID {m : MetaKeys} {n : String} {id : Nat} {r : Option MetaKey}
    {m2 : MetaKeys} (hinv : MKInv m) (h : m.addWithID n id = (r, none, m2)) :
    id + 1 ≤ m2.maxID := by
  obtain ⟨h1, h2, h3⟩ := hinv
  by_cases hguard : (lookupA m.namesById id).getD n ≠ n
  · simp [MetaKeys.addWithID, hguard] at h
  · match hg : m.get n with
    | some key =>
      by_cases hid : key.id ≠ id
      · simp [MetaKeys.addWithID, hguard, hg, hid] at h
      · simp only [MetaKeys.addWithID, hguard, hg, hid, ite_false, reduceIte,
          Prod.mk.injEq] at h
        obtain ⟨-, -, rfl⟩ := h
        simp only [ne_eq, not_not] at hid
        obtain ⟨-, hby⟩ := h1 n key hg
        have := h3 key.id n hby
        omega
    | none =>
      simp only [MetaKeys.addWithID, hguard, hg, reduceIte, Prod.mk.injEq] at h
      obtain ⟨-, -, rfl⟩ := h
      dsimp only
      split <;> omega

/-- C6: after any sequence of `Intern` and `InternWithID` calls starting from
a fresh registry, no two names share an id, every bound id sits below the
high-water mark, the high-water mark only advances, a successful
`InternWithID(n, id)` advances it to at least `id + 1`, and a plain `Intern`
of a new name right after it is issued an id of at least `id + 1`. -/
theorem c6_monotonic_ids (ops : List MKOp) :
    (∀ n1 n2 k1 k2, lookupA (runOps ops).keys n1 = some k1 →
      lookupA (runOps ops).keys n2 = some k2 → k1.id = k2.id → n1 = n2)
    ∧ (∀ n k, lookupA (runOps ops).keys n = some k → k.id < (runOps ops).maxID)
    ∧ (∀ op, (runOps ops).maxID ≤ ((runOps ops).step op).maxID)
    ∧ (∀ n id r m2, (runOps ops).addWithID n id = (r, none, m2) →
        id + 1 ≤ m2.maxID)
    ∧ (∀ n id r m2 n2, (runOps ops).addWithID n id = (r, none, m2) →
        m2.get n2 = none → id + 1 ≤ (m2.add n2).1.id) := by
  obtain ⟨h1, h2, h3⟩ := mkInv_runOps ops
  refine ⟨?_, ?_, ?_, ?_, ?_⟩
  · intro n1 n2 k1 k2 hk1 hk2 hid
    obtain ⟨-, hby1⟩ := h1 n1 k1 hk1
    obtain ⟨-, hby2⟩ := h1 n2 k2 hk2
    rw [hid] at hby1
    rw [hby1] at hby2
    exact (Option.some.injEq _ _ ▸ hby2).symm ▸ rfl
  · intro n k hk
    obtain ⟨-, hby⟩ := h1 n k hk
    exact h3 k.id n hby
  · exact step_maxID_mono (runOps ops)
  · intro n id r m2 h
    exact addWithID_ok_maxID ⟨h1, h2, h3⟩ h
  · intro n id r m2 n2 h hfresh
    have hmax := addWithID_ok_maxID ⟨h1, h2, h3⟩ h
    have hfresh2 : lookupA m2.keys n2 = none := hfresh
    simp [MetaKeys.add, MetaKeys.get, hfresh2]
    omega

/-! ## Persisting the registry: saveMetaKeys (part_001 lines 647–665)

The `meta_keys` table has `id` as primary key and a unique index on `key`.
`saveMetaKeys` issues one multi-row `INSERT OR REPLACE` over every registry
entry; SQLite processes the rows in order, deleting any row that conflicts on
either uniqueness constraint before inserting the new row. -/

/-- One `INSERT OR REPLACE` row against `meta_keys`: drop every persisted row
conflicting on the id primary key or the unique key column, append the row. -/
def upsertMetaKey (t : List (Nat × String)) (id : Nat) (key : String) :
    List (Nat × String) :=
  t.filter (fun r => !(r.1 = id || r.2 = key)) ++ [(id, key)]

/-- `saveMetaKeys`: upsert every `(id, name)` entry of the registry (when the
registry is empty no statement is issued and the table is untouched, which the
empty fold also models). -/
def saveMetaKeys (m : MetaKeys) (t : List (Nat × String)) : List (Nat × String) :=
  m.keys.foldl (fun acc e => upsertMetaKey acc e.2.id e.2.name) t

/-- A persisted row conflicting with no entry of `es`. -/
def rowClear (es : List (String × MetaKey)) (r : Nat × String) : Bool :=
  es.all (fun e => !(r.1 = e.2.id || r.2 = e.2.name))

/-- Registry entries pairwise distinct in both id and name. -/
def entriesDistinct (es : List (String × MetaKey)) : Prop :=
  List.Pairwise (fun e1 e2 => e1.2.id ≠ e2.2.id ∧ e1.2.name ≠ e2.2.name) es

theorem filter_rowClear_nil (t : List (Nat × String)) :
    t.filter (rowClear []) = t := by
  induction t with
  | nil => rfl
  | cons r t ih => simp [rowClear, ih]

theorem upsert_filter (t : List (Nat × String)) (id : Nat) (key : String)
    (es : List (String × MetaKey)) :
    (upsertMetaKey t id key).filter (rowClear es)
      = (t.filter (fun r => !(r.1 = id || r.2 = key))).filter (rowClear es)
        ++ [(id, key)].filter (rowClear es) := by
  simp [upsertMetaKey]

/-- Normal form of a full save over pairwise-distinct entries: the table rows
that conflict with no entry, followed by one row per entry, in order. -/
theorem saveMetaKeys_normal :
    ∀ (es : List (String × MetaKey)) (t : List (Nat × String)),
      entriesDistinct es →
      es.foldl (fun acc e => upsertMetaKey acc e.2.id e.2.name) t
        = t.filter (rowClear es) ++ es.map (fun e => (e.2.id, e.2.name))
  | [], t, _ => by simp [filter_rowClear_nil t]
  | e :: es, t, hdist => by
    have hd := List.pairwise_cons.mp hdist
    rw [List.foldl_cons, saveMetaKeys_normal es (upsertMetaKey t e.2.id e.2.name) hd.2,
      upsert_filter]
    have hrow : rowClear es (e.2.id, e.2.name) = true := by
      simp only [rowClear, List.all_eq_true]
      intro e2 he2
      have hne := hd.1 e2 he2
      simp [hne.1, hne.2]
    have hff : ((t.filter (fun r => !(r.1 = e.2.id || r.2 = e.2.name))).filter
          (rowClear es))
        = t.filter (rowClear (e :: es)) := by
      rw [List.filter_filter]
      refine List.filter_congr fun r _ => ?_
      simp [rowClear, Bool.and_comm]
    rw [hff]
    simp [hrow]

/-- C7: saving the registry is an idempotent upsert of every `(id, name)`
pair: saving again with the same registry leaves the persisted rows exactly
as they were, and an upsert leaves exactly one row for its id — the new row
— so the last write for a given id wins and repeated saves neither fail on
already-present rows nor accumulate duplicates. -/
theorem c7_save_idempotent_upsert (m : MetaKeys) (t : List (Nat × String))
    (hdist : entriesDistinct m.keys) :
    saveMetaKeys m (saveMetaKeys m t) = saveMetaKeys m t
    ∧ (∀ id key, (upsertMetaKey t id key).filter (fun r => r.1 = id) = [(id, key)]) := by
  constructor
  · rw [saveMetaKeys, saveMetaKeys, saveMetaKeys_normal m.keys t hdist,
      saveMetaKeys_normal m.keys _ hdist, List.filter_append]
    have hrows : ((m.keys.map fun e => (e.2.id, e.2.name)).filter (rowClear m.keys)) = [] := by
      rw [List.filter_eq_nil_iff]
      intro a ha
      obtain ⟨e, he, rfl⟩ := List.mem_map.mp ha
      simp only [rowClear, Bool.not_eq_true, List.all_eq_false]
      exact ⟨e, he, by simp⟩
    have hidem : (t.filter (rowClear m.keys)).filter (rowClear m.keys)
        = t.filter (rowClear m.keys) := by
      rw [List.filter_filter]
      exact List.filter_congr fun r _ => Bool.and_self _
    rw [hrows, hidem, List.append_nil]
  · intro id key
    rw [upsertMetaKey, List.filter_append]
    have hleft : (t.filter (fun r => !(r.1 = id || r.2 = key))).filter
        (fun r => r.1 = id) = [] := by
      rw [List.filter_filter, List.filter_eq_nil_iff]
      intro a _
      by_cases ha : a.1 = id <;> simp [ha]
    rw [hleft, List.nil_append]
    simp

/-! ## The store and the write path (src/unnamed/part_001, lines 199–278)

The SQLite store is three tables plus the AUTOINCREMENT counters.  `Write`
is embedded with Go's actual control flow:

* every failing step after `Beginx` assigns a *shadowed* `err` (the header
  scan at line 225, `json.Marshal` at line 253 and the row insert at line 272
  all declare fresh `err`s in inner scopes), so the deferred
  commit-or-rollback closure always observes the outer `err == nil` from
  `Beginx` and calls `tx.Commit()` — the rollback branch is unreachable;
* the function's result parameters are unnamed (`(int, error)`), so the
  deferred closure's assignments `err = tx.Rollback()` / `err = tx.Commit()`
  never reach the caller — the values fixed at the `return` site are
  returned, and the commit error is dropped.

`finish` spells out that every post-begin exit commits the transaction built
so far (the store keeps it unless the commit itself fails, in which case the
engine discards it) and returns the result computed at the return site. -/

/-- A committed `log_entries` row.  `date` is the UTC timestamp as a number;
`level` and `session` hold whatever JSON value the payload carried (absent
fields insert NULL). -/
structure LogEntryRow where
  id : Nat
  date : Nat
  level : Option JVal
  session : Option JVal

/-- A stored `log_entries_meta` row (without the joined `meta_key` column). -/
structure MetaRow where
  id : Nat
  logEntryId : Nat
  type : LogEntryType
  name : Option String
  metaKeyId : Option Nat
  intValue : Option Int
  realValue : Option JNum
  textValue : Option String
  blobValue : Option String

/-- The backing store: the three tables and the generated-id counters. -/
structure DB where
  logEntries : List LogEntryRow
  logEntriesMeta : List MetaRow
  metaKeys : List (Nat × String)
  nextEntryId : Nat
  nextMetaId : Nat

/-- `Schema` (part_001 lines 126–135). -/
structure Schema where
  metaKeys : MetaKeys

/-- `LogWriter`: the handle to the store plus the in-memory schema. -/
structure LogWriter where
  db : DB
  schema : Schema

/-- Injected backing-store faults, to exercise the failure paths of `Write`:
whether `Beginx` fails, whether the header insert's scan fails, the index of
an attribute insert that fails, and whether the final commit fails. -/
structure WriteFaults where
  beginFail : Bool
  headerFail : Bool
  metaFailAt : Option Nat
  commitFail : Bool

/-- The attribute loop of `Write` (part_001 lines 230–275): skip `level` and
`session` (already filtered out by the caller), encode each value, resolve
the name against the registry (`meta_key_id` when interned, literal `name`
otherwise), and insert one row per field inside the transaction.  A failing
insert returns through `finish` with the rows inserted so far. -/
def writeMetaLoop (f : WriteFaults) (reg : MetaKeys) (entryId : Nat) (i : Nat)
    (tx : DB) (attrs : List (String × JVal)) (pLen : Nat)
    (finish : DB → Nat × Option GoErr → DB × Nat × Option GoErr) :
    DB × Nat × Option GoErr :=
  match attrs with
  | [] => finish tx (pLen, none)
  | (k, v) :: rest =>
    let e := encodeMetaValue (.jval v)
    let nameCol : Option String := if (reg.get k).isSome then none else some k
    let mkidCol : Option Nat := (reg.get k).map (fun key => key.id)
    if f.metaFailAt = some i then finish tx (0, some .execFail)
    else
      writeMetaLoop f reg entryId (i + 1)
        { tx with
          logEntriesMeta := tx.logEntriesMeta ++
            [⟨tx.nextMetaId, entryId, e.typeValue, nameCol, mkidCol, e.intValue,
              e.realValue, e.textValue, e.blobValue⟩],
          nextMetaId := tx.nextMetaId + 1 }
        rest pLen finish

/-- `LogWriter.Write` (part_001 lines 199–278).  Returns the store after the
call, the returned byte count, and the returned error. -/
def write (f : WriteFaults) (reg : MetaKeys) (db : DB) (now : Nat) (p : String) :
    DB × Nat × Option GoErr :=
  match jsonUnmarshal p with
  | some (.obj fields) =>
    if f.beginFail then (db, 0, some .beginFail)
    else
      -- Deferred closure: outer err is nil on every path, so it commits; its
      -- result is assigned to a local and dropped (unnamed results).
      let finish : DB → Nat × Option GoErr → DB × Nat × Option GoErr :=
        fun tx r => (if f.commitFail then db else tx, r)
      if f.headerFail then finish db (0, some .scanFail)
      else
        let entryId := db.nextEntryId
        let tx0 : DB := { db with
          logEntries := db.logEntries ++
            [⟨entryId, now, lookupA fields "level", lookupA fields "session"⟩],
          nextEntryId := entryId + 1 }
        writeMetaLoop f reg entryId 0 tx0
          (fields.filter fun kv => !(kv.1 = "level" || kv.1 = "session"))
          p.length finish
  | _ => (db, 0, some .jsonSyntax)

/-! ## The read path (src/unnamed/part_001, lines 332–524)

`GetEntriesFilter`, `GetEntriesFilter.Apply` and `LogWriter.GetEntries`.

`Apply` appends `WHERE` conditions to the select it is handed.  `GetEntries`
hands it the *header* select over `log_entries` (line 447–448); conditions on
`mk.name`, `mk.meta_key_id` or `lem.*_value` reference columns that do not
exist there (and are joined only in the second, attribute-level select, which
the filter is never applied to), so executing that select fails with SQLite's
no-such-column error.  `Cond.headerOnly` records which conditions touch only
`log_entries` columns. -/

/-- `GetEntriesFilter` (part_001 lines 332–339): zero values mean the field
is unpopulated, as in Go (`""` for strings, `time.Time{}.IsZero()` — here
`0` — for the range ends). -/
structure GetEntriesFilter where
  level : String := ""
  session : String := ""
  fromDate : Nat := 0
  toDate : Nat := 0
  selectedMetaKeys : List String := []
  metaFilters : List (String × GoValue) := []

/-- One `WHERE` condition that `Apply` can append.  The last four reference
the `mk.`/`lem.` columns named in the code; `col` is the typed value column
chosen from the classified filter value (`<kind>_value`). -/
inductive Cond where
  | levelEq (s : String) : Cond
  | sessionEq (s : String) : Cond
  | dateGE (d : Nat) : Cond
  | dateLE (d : Nat) : Cond
  | mkNameIn (ks : List String) : Cond
  | mkMetaKeyIdIn (ids : List Nat) : Cond
  | mkNameEq (k : String) (col : String) (v : GoValue) : Cond
  | mkMetaKeyIdEq (id : Nat) (col : String) (v : GoValue) : Cond

/-- `GetEntriesFilter.Apply` (part_001 lines 395–439), as the list of
conditions it adds, in source order.  Each `MetaFilters` pair contributes a
name-match plus a value-match on the column chosen by classifying the
expected value (the code's two `q.E` arguments to one `q.Where`, carried
here in one condition). -/
def GetEntriesFilter.apply (gef : GetEntriesFilter) (metaKeys : MetaKeys) :
    List Cond :=
  (if gef.level ≠ "" then [.levelEq gef.level] else [])
  ++ (if gef.session ≠ "" then [.sessionEq gef.session] else [])
  ++ (if gef.fromDate ≠ 0 then [.dateGE gef.fromDate] else [])
  ++ (if gef.toDate ≠ 0 then [.dateLE gef.toDate] else [])
  ++ (if gef.selectedMetaKeys.length > 0 then
      (let stringKeys := gef.selectedMetaKeys.filter fun k => (metaKeys.get k).isNone
       let intKeys := gef.selectedMetaKeys.filterMap fun k =>
         (metaKeys.get k).map fun v => v.id
       (if stringKeys.length > 0 then [.mkNameIn stringKeys] else [])
       ++ (if intKeys.length > 0 then [.mkMetaKeyIdIn intKeys] else []))
    else [])
  ++ gef.metaFilters.map (fun kv =>
      match metaKeys.get kv.1 with
      | none => Cond.mkNameEq kv.1 ((ToLogEntryType kv.2).string ++ "_value") kv.2
      | some key =>
        Cond.mkMetaKeyIdEq key.id ((ToLogEntryType kv.2).string ++ "_value") kv.2)

/-- Whether a condition references only columns of `log_entries`; the others
name `mk.`/`lem.` columns this select cannot resolve. -/
def Cond.headerOnly : Cond → Bool
  | .levelEq _ => true
  | .sessionEq _ => true
  | .dateGE _ => true
  | .dateLE _ => true
  | _ => false

/-- Evaluate a header-only condition on a `log_entries` row (an SQL `=`
against a stored value matches its text form; the range bounds are the
inclusive `>=` and `<=` of the code). -/
def Cond.matchesHeader (r : LogEntryRow) : Cond → Bool
  | .levelEq s =>
    match r.level with
    | some (.str s2) => s2 = s
    | _ => false
  | .sessionEq s =>
    match r.session with
    | some (.str s2) => s2 = s
    | _ => false
  | .dateGE d => d ≤ r.date
  | .dateLE d => r.date ≤ d
  | _ => false

/-- Sorting key of the header select's `ORDER BY id ASC` and of the final
`sort.Slice` on entries. -/
def rowLE (a b : LogEntryRow) : Prop := a.id ≤ b.id

instance : DecidableRel rowLE := fun a b => Nat.decLe a.id b.id

instance : IsTotal LogEntryRow rowLE := ⟨fun a b => Nat.le_total a.id b.id⟩

instance : IsTrans LogEntryRow rowLE := ⟨fun _ _ _ => Nat.le_trans⟩

/-- Run the phase-1 select over `log_entries`: fails when any condition
references a column the table lacks, else filters and orders by id. -/
def runHeaderSelect (conds : List Cond) (db : DB) :
    Except GoErr (List LogEntryRow) :=
  if conds.all Cond.headerOnly then
    .ok (List.insertionSort rowLE
      (db.logEntries.filter fun r => conds.all (Cond.matchesHeader r)))
  else .error .noSuchColumn

/-- A reconstructed `LogEntry` (header fields plus the rebuilt `Meta` map,
as an insertion-ordered association list). -/
structure LogEntry where
  id : Nat
  date : Nat
  level : Option JVal
  session : Option JVal
  meta : List (String × GoValue)

/-- Scan a header row into an entry with an empty attribute mapping. -/
def rowToEntry (r : LogEntryRow) : LogEntry := ⟨r.id, r.date, r.level, r.session, []⟩

/-- Final sort key on entries (`sort.Slice` by id ascending). -/
def entryLE (a b : LogEntry) : Prop := a.id ≤ b.id

instance : DecidableRel entryLE := fun a b => Nat.decLe a.id b.id

instance : IsTotal LogEntry entryLE := ⟨fun a b => Nat.le_total a.id b.id⟩

instance : IsTrans LogEntry entryLE := ⟨fun _ _ _ => Nat.le_trans⟩

/-- The phase-2 left join `meta_keys mk ON mk.id = lem.meta_key_id`,
selecting `lem.*` and `mk.key AS meta_key`. -/
def joinMetaRow (t : List (Nat × String)) (r : MetaRow) : LogEntryMeta :=
  ⟨r.id, r.logEntryId, r.type, r.name, r.metaKeyId, r.intValue, r.realValue,
    r.textValue, r.blobValue, r.metaKeyId.bind fun id => lookupA t id⟩

/-- Go's `v == nil` on the decoded value: only the untyped nil that
`json.Unmarshal` leaves for the JSON literal `null` compares equal to nil
(a `[]byte` or string result is a typed, non-nil interface). -/
def isNilValue : GoValue → Bool
  | .jval .null => true
  | _ => false

/-- Go map assignment `entry.Meta[name] = v`: overwrite or append. -/
def mapInsert (m : List (String × GoValue)) (k : String) (v : GoValue) :
    List (String × GoValue) :=
  if (lookupA m k).isSome then m.map fun kv => if kv.1 = k then (k, v) else kv
  else m ++ [(k, v)]

/-- Fold one scanned attribute row into the entries (part_001 lines 482–511):
rows of unmatched events are skipped, a decode error aborts the query, a nil
decoded value is skipped, the name resolves through the literal column first
and the joined registry name second, else the row is dropped. -/
def applyMetaRow (entries : List LogEntry) (lem : LogEntryMeta) :
    Except GoErr (List LogEntry) :=
  if (entries.find? fun e => e.id == lem.logEntryId).isNone then .ok entries
  else
    match lem.value with
    | .error e => .error e
    | .ok v =>
      if isNilValue v then .ok entries
      else
        match lem.name.orElse fun _ => lem.metaKey with
        | none => .ok entries
        | some nm =>
          .ok (entries.map fun e =>
            if e.id = lem.logEntryId then { e with meta := mapInsert e.meta nm v }
            else e)

/-- `LogWriter.GetEntries` (part_001 lines 441–524), parameterized by the
iteration order of the Go `map[int]*LogEntry` collected per event
(`shuffle`), which the final `sort.Slice` is there to cancel. -/
def getEntriesWith (shuffle : List LogEntry → List LogEntry) (l : LogWriter)
    (filterArg : Option GetEntriesFilter) : Except GoErr (List LogEntry) :=
  let gef := filterArg.getD {}
  let conds := gef.apply l.schema.metaKeys
  match runHeaderSelect conds l.db with
  | .error e => .error e
  | .ok hdrRows =>
    let entries0 := hdrRows.map rowToEntry
    let ids := hdrRows.map fun r => r.id
    let metas := (l.db.logEntriesMeta.filter fun r => ids.contains r.logEntryId).map
      (joinMetaRow l.db.metaKeys)
    match metas.foldlM applyMetaRow entries0 with
    | .error e => .error e
    | .ok entries => .ok (List.insertionSort entryLE (shuffle entries))

/-- `GetEntries` with the identity iteration order. -/
def GetEntries (l : LogWriter) (filterArg : Option GetEntriesFilter) :
    Except GoErr (List LogEntry) :=
  getEntriesWith id l filterArg

/-! ## Claims about the write path's failure behavior -/

/-- A fresh store with generated ids starting at 1. -/
def emptyDB : DB := ⟨[], [], [], 1, 1⟩

/-- C2: the claim says a mid-write failure rolls the whole transaction back
and leaves the store exactly as before the call.  The code does not: with the
attribute-row insert failing after the header insert succeeded, `Write`
returns an error, yet the header row for the event is committed and visible
afterwards — every failing step after `Beginx` assigns a shadowed `err`, so
the deferred closure sees `err == nil` and commits instead of rolling back.
The malformed-payload part of the claim does hold: it fails before the
transaction opens with no store side effect (second conjunct). -/
theorem c2_write_commits_despite_failure :
    (write ⟨false, false, some 0, false⟩ NewMetaKeys emptyDB 100
        "\x7b\"level\":\"INFO\",\"a\":1\x7d"
      = ({ logEntries := [⟨1, 100, some (.str "INFO"), none⟩], logEntriesMeta := [],
           metaKeys := [], nextEntryId := 2, nextMetaId := 1 }, 0, some .execFail))
    ∧ write ⟨false, false, none, false⟩ NewMetaKeys emptyDB 100 "\x7b\"level\""
        = (emptyDB, 0, some .jsonSyntax) :=
  ⟨rfl, rfl⟩

/-- C3: the claim says a commit failure is surfaced unchanged and `Write`
never reports success when the commit failed.  The code does not: `Write`'s
result parameters are unnamed, so the deferred closure's `err = tx.Commit()`
assignment is lost — with the commit failing, `Write` returns
`(len(p), nil)`, reporting success while the store kept nothing. -/
theorem c3_commit_failure_swallowed :
    write ⟨false, false, none, true⟩ NewMetaKeys emptyDB 100
        "\x7b\"level\":\"INFO\",\"a\":1\x7d"
      = (emptyDB, 22, none) :=
  rfl

/-! ## Claims about the read path -/

/-- Two events sharing `foo = "bar"`, the first also carrying `baz = 42`. -/
def c4DB : DB :=
  ⟨[⟨1, 10, some (.str "DEBUG"), none⟩, ⟨2, 20, some (.str "DEBUG"), none⟩],
   [⟨1, 1, .text, some "foo", none, none, none, some "bar", none⟩,
    ⟨2, 1, .real, some "baz", none, none, some ⟨false, 4, [2], []⟩, none, none⟩,
    ⟨3, 2, .text, some "foo", none, none, none, some "bar", none⟩],
   [], 3, 4⟩

/-- The writer handle over `c4DB` with an empty in-memory registry. -/
def c4LW : LogWriter := ⟨c4DB, ⟨NewMetaKeys⟩⟩

/-- C4: the claim says `value_filters = {foo: "bar", baz: 42}` narrows the
result to exactly the events possessing both attribute values.  The code
instead attaches the per-pair name/value predicates to the phase-1 select on
`log_entries`, which has no `mk.name`, `mk.meta_key_id` or `lem.*_value`
columns (the registry join only exists in the phase-2 select, to which the
filter is never applied), so the query fails with a no-such-column error
(first conjunct) — while the unfiltered query shows the scenario's data is
present and reconstructable (second conjunct). -/
theorem c4_value_filters_no_such_column :
    GetEntries c4LW (some { metaFilters :=
        [("foo", .jval (.str "bar")), ("baz", .jval (.num ⟨false, 4, [2], []⟩))] })
      = .error .noSuchColumn
    ∧ GetEntries c4LW none
      = .ok [⟨1, 10, some (.str "DEBUG"), none,
              [("foo", .jval (.str "bar")), ("baz", .jval (.num ⟨false, 4, [2], []⟩))]⟩,
             ⟨2, 20, some (.str "DEBUG"), none, [("foo", .jval (.str "bar"))]⟩] :=
  ⟨rfl, rfl⟩

/-- C8: whatever iteration order the per-event hash map hands the final
`sort.Slice`, a successful query's sequence of events is sorted ascending by
event id. -/
theorem c8_entries_sorted_by_id (shuffle : List LogEntry → List LogEntry)
    (l : LogWriter) (fa : Option GetEntriesFilter) (es : List LogEntry)
    (h : getEntriesWith shuffle l fa = .ok es) : List.Sorted entryLE es := by
  rw [getEntriesWith.eq_def] at h
  dsimp only at h
  split at h
  · exact absurd h (by simp)
  · split at h
    · exact absurd h (by simp)
    · simp only [Except.ok.injEq] at h
      rw [← h]
      exact List.sorted_insertionSort entryLE _

/-- Closed instance of `c8_entries_sorted_by_id` on a concrete store. -/
theorem c8_entries_sorted_by_id_witness :
    List.Sorted entryLE
      [⟨1, 10, some (.str "DEBUG"), none,
         [("foo", .jval (.str "bar")), ("baz", .jval (.num ⟨false, 4, [2], []⟩))]⟩,
       ⟨2, 20, some (.str "DEBUG"), none, [("foo", .jval (.str "bar"))]⟩] :=
  c8_entries_sorted_by_id id c4LW none _ rfl

/-- Four events with levels INFO, DEBUG, WARN, DEBUG, sessions A, A, B, B and
dates 10, 20, 30, 40 (the filter-correctness scenario). -/
def c9DB : DB :=
  ⟨[⟨1, 10, some (.str "INFO"), some (.str "A")⟩,
    ⟨2, 20, some (.str "DEBUG"), some (.str "A")⟩,
    ⟨3, 30, some (.str "WARN"), some (.str "B")⟩,
    ⟨4, 40, some (.str "DEBUG"), some (.str "B")⟩],
   [], [], 5, 1⟩

/-- The writer handle over `c9DB`. -/
def c9LW : LogWriter := ⟨c9DB, ⟨NewMetaKeys⟩⟩

/-- C9: the header phase applies level equality, session equality, and the
inclusive range bounds `date >= from` and `date <= to`, each only when the
corresponding field is populated, ordering by id; in particular, on the four
INFO/DEBUG/WARN/DEBUG events, `level = DEBUG` returns exactly the 2nd and 4th
events in id order, and a from/to window bracketing only event 2's timestamp
returns exactly event 2. -/
theorem c9_header_phase_filters :
    (∀ (l : LogWriter) (gef : GetEntriesFilter), gef.selectedMetaKeys = [] →
      gef.metaFilters = [] →
      runHeaderSelect (gef.apply l.schema.metaKeys) l.db
        = .ok (List.insertionSort rowLE (l.db.logEntries.filter fun r =>
            (gef.level = ""
              || (match r.level with | some (.str s) => s = gef.level | _ => false))
            && (gef.session = ""
              || (match r.session with | some (.str s) => s = gef.session | _ => false))
            && (gef.fromDate = 0 || gef.fromDate ≤ r.date)
            && (gef.toDate = 0 || r.date ≤ gef.toDate))))
    ∧ GetEntries c9LW (some { level := "DEBUG" })
      = .ok [⟨2, 20, some (.str "DEBUG"), some (.str "A"), []⟩,
             ⟨4, 40, some (.str "DEBUG"), some (.str "B"), []⟩]
    ∧ GetEntries c9LW (some { fromDate := 15, toDate := 25 })
      = .ok [⟨2, 20, some (.str "DEBUG"), some (.str "A"), []⟩] := by
  refine ⟨?_, rfl, rfl⟩
  intro l gef hsel hmf
  by_cases hl : gef.level = "" <;> by_cases hs : gef.session = "" <;>
    by_cases hf : gef.fromDate = 0 <;> by_cases ht : gef.toDate = 0 <;>
    simp [GetEntriesFilter.apply, hsel, hmf, hl, hs, hf, ht, runHeaderSelect,
      Cond.headerOnly, Cond.matchesHeader, Bool.and_assoc]

/-- Closed instance of the header-phase characterization: the DEBUG filter at
the scenario store selects exactly the 2nd and 4th header rows. -/
theorem c9_header_phase_filters_witness :
    runHeaderSelect (GetEntriesFilter.apply { level := "DEBUG" } c9LW.schema.metaKeys)
      c9LW.db
      = .ok [⟨2, 20, some (.str "DEBUG"), some (.str "A")⟩,
             ⟨4, 40, some (.str "DEBUG"), some (.str "B")⟩] := by
  rw [c9_header_phase_filters.1 c9LW { level := "DEBUG" } rfl rfl]
  rfl

/-- A binding produced by `mapInsert` is an old binding or carries the new
value. -/
theorem mapInsert_mem {m : List (String × GoValue)} {k : String} {v : GoValue}
    {kv : String × GoValue} (h : kv ∈ mapInsert m k v) : kv ∈ m ∨ kv.2 = v := by
  unfold mapInsert at h
  split at h
  · obtain ⟨kv0, hkv0, heq⟩ := List.mem_map.mp h
    by_cases hk : kv0.1 = k
    · rw [if_pos hk] at heq
      right
      rw [← heq]
    · rw [if_neg hk] at heq
      left
      rw [← heq]
      exact hkv0
  · rcases List.mem_append.mp h with hm | hm
    · exact Or.inl hm
    · right
      rw [List.mem_singleton.mp hm]

/-- Entries never bind a name to a nil decoded value: preserved by one
attribute-row application. -/
theorem applyMetaRow_no_nil {entries es : List LogEntry} {lem : LogEntryMeta}
    (hinv : ∀ e ∈ entries, ∀ kv ∈ e.meta, isNilValue kv.2 = false)
    (h : applyMetaRow entries lem = .ok es) :
    ∀ e ∈ es, ∀ kv ∈ e.meta, isNilValue kv.2 = false := by
  unfold applyMetaRow at h
  split at h
  · cases h
    exact hinv
  · split at h
    · cases h
    · rename_i v hv
      split at h
      · cases h
        exact hinv
      · rename_i hnil
        split at h
        · cases h
          exact hinv
        · rename_i nm hnm
          cases h
          intro e he kv hkv
          obtain ⟨e0, he0, heq⟩ := List.mem_map.mp he
          by_cases hid : e0.id = lem.logEntryId
          · rw [if_pos hid] at heq
            rw [← heq] at hkv
            rcases mapInsert_mem hkv with hold | hnew
            · exact hinv e0 he0 kv hold
            · rw [hnew]
              simpa using hnil
          · rw [if_neg hid] at heq
            rw [← heq] at hkv
            exact hinv e0 he0 kv hkv

/-- The same invariant through the whole fold over the scanned rows. -/
theorem foldlM_applyMetaRow_no_nil :
    ∀ (metas : List LogEntryMeta) (entries es : List LogEntry),
      (∀ e ∈ entries, ∀ kv ∈ e.meta, isNilValue kv.2 = false) →
      List.foldlM applyMetaRow entries metas = .ok es →
      ∀ e ∈ es, ∀ kv ∈ e.meta, isNilValue kv.2 = false
  | [], entries, es, hinv, h => by
    cases h
    exact hinv
  | m :: ms, entries, es, hinv, h => by
    rw [List.foldlM_cons] at h
    match hstep : applyMetaRow entries m with
    | .error e => rw [hstep] at h; cases h
    | .ok entries2 =>
      rw [hstep] at h
      exact foldlM_applyMetaRow_no_nil ms entries2 es (applyMetaRow_no_nil hinv hstep) h

/-- One event whose attribute rows are a stored `Json` value `null` under
name `a` and a text `"x"` under name `b`. -/
def c10DB : DB :=
  ⟨[⟨1, 10, some (.str "INFO"), none⟩],
   [⟨1, 1, .json, some "a", none, none, none, none, some "null"⟩,
    ⟨2, 1, .text, some "b", none, none, none, some "x", none⟩],
   [], 2, 3⟩

/-- The writer handle over `c10DB`. -/
def c10LW : LogWriter := ⟨c10DB, ⟨NewMetaKeys⟩⟩

/-- C10: an attribute row whose decoded value is nil — a stored `Json`
attribute whose payload is the JSON literal `null` — is silently omitted from
the reconstructed attribute mapping rather than appearing as a key bound to a
null value (no returned entry ever binds a name to the null value), while the
event itself and its other attributes are still returned. -/
theorem c10_null_decoded_attr_omitted :
    (∀ (l : LogWriter) (fa : Option GetEntriesFilter) (es : List LogEntry),
      GetEntries l fa = .ok es →
      ∀ e ∈ es, ∀ kv ∈ e.meta, kv.2 ≠ GoValue.jval JVal.null)
    ∧ GetEntries c10LW none
      = .ok [⟨1, 10, some (.str "INFO"), none, [("b", .jval (.str "x"))]⟩] := by
  constructor
  · intro l fa es h
    rw [GetEntries, getEntriesWith.eq_def] at h
    dsimp only at h
    split at h
    · exact absurd h (by simp)
    · rename_i hdrRows heq
      split at h
      · exact absurd h (by simp)
      · rename_i entries hfold
        simp only [Except.ok.injEq] at h
        have hinv0 : ∀ e ∈ hdrRows.map rowToEntry, ∀ kv ∈ e.meta,
            isNilValue kv.2 = false := by
          intro e he kv hkv
          obtain ⟨r, -, rfl⟩ := List.mem_map.mp he
          simp [rowToEntry] at hkv
        have hinv := foldlM_applyMetaRow_no_nil _ _ _ hinv0 hfold
        intro e he kv hkv
        have hmem : e ∈ entries := by
          have hperm := List.perm_insertionSort entryLE entries
          rw [← h] at he
          exact hperm.mem_iff.mp he
        have := hinv e hmem kv hkv
        intro hcontra
        rw [hcontra] at this
        simp [isNilValue] at this
  · rfl

/-- Closed instance of the no-nil-binding invariant at the scenario store. -/
theorem c10_null_decoded_attr_omitted_witness :
    ∀ e ∈ [(⟨1, 10, some (.str "INFO"), none,
        [("b", .jval (.str "x"))]⟩ : LogEntry)],
      ∀ kv ∈ e.meta, kv.2 ≠ GoValue.jval JVal.null :=
  c10_null_decoded_attr_omitted.1 c10LW none _ rfl

/-- Closed instance of `c5_intern_stability`: on the registry holding only
`foo ↦ 0`, a successful `AddWithID("baz", 2)` repeats idempotently, an
`AddWithID("bar", 0)` against the taken id fails and changes nothing, and an
`AddWithID("foo", 5)` against the taken name fails. -/
theorem c5_intern_stability_witness :
    (((NewMetaKeys.add "foo").2.addWithID "baz" 2).2.2.addWithID "baz" 2
        = (some ⟨"baz", 2⟩, none, ((NewMetaKeys.add "foo").2.addWithID "baz" 2).2.2))
    ∧ ((NewMetaKeys.add "foo").2.addWithID "bar" 0).1 = none
    ∧ ((NewMetaKeys.add "foo").2.addWithID "bar" 0).2.2 = (NewMetaKeys.add "foo").2
    ∧ ((NewMetaKeys.add "foo").2.addWithID "foo" 5).2.1.isSome = true := by
  refine ⟨?_, ?_, ?_, ?_⟩
  · exact (c5_intern_stability (NewMetaKeys.add "foo").2 "baz" 2).2.1
      ⟨"baz", 2⟩ ((NewMetaKeys.add "foo").2.addWithID "baz" 2).2.2 rfl
  · exact ((c5_intern_stability (NewMetaKeys.add "foo").2 "bar" 0).2.2.1
      "foo" rfl (by decide)).1
  · exact ((c5_intern_stability (NewMetaKeys.add "foo").2 "bar" 0).2.2.1
      "foo" rfl (by decide)).2.2
  · exact ((c5_intern_stability (NewMetaKeys.add "foo").2 "foo" 5).2.2.2
      ⟨"foo", 0⟩ rfl (by decide)).1

/-- Closed instance of `c6_monotonic_ids`: after interning `qux` at the
sparse explicit id 5 on the registry reached by `Intern("foo")`, the next
plain `Intern` of a fresh name is issued an id of at least 6. -/
theorem c6_monotonic_ids_witness :
    5 + 1 ≤ (((runOps [.intern "foo"]).addWithID "qux" 5).2.2.add "quz").1.id :=
  (c6_monotonic_ids [.intern "foo"]).2.2.2.2 "qux" 5 (some ⟨"qux", 5⟩)
    ((runOps [.intern "foo"]).addWithID "qux" 5).2.2 "quz" rfl rfl

/-- Closed instance of `c7_save_idempotent_upsert`: a second save of the
registry holding `foo ↦ 0` leaves the persisted rows unchanged, and an upsert
of `(3, "new")` over a table holding `(3, "old")` leaves exactly the new row
for id 3. -/
theorem c7_save_idempotent_upsert_witness :
    saveMetaKeys (NewMetaKeys.add "foo").2
        (saveMetaKeys (NewMetaKeys.add "foo").2 [(3, "old")])
      = saveMetaKeys (NewMetaKeys.add "foo").2 [(3, "old")]
    ∧ (upsertMetaKey [(3, "old")] 3 "new").filter (fun r => r.1 = 3) = [(3, "new")] := by
  have h := c7_save_idempotent_upsert (NewMetaKeys.add "foo").2 [(3, "old")]
    (by
      rw [entriesDistinct,
        show (NewMetaKeys.add "foo").2.keys = [("foo", ⟨"foo", 0⟩)] from rfl]
      simp)
  exact ⟨h.1, h.2 3 "new"⟩

end Plunger
